import Mathlib

/-!
Shallow embedding of the provenance-resolution core of `water.py`.

Text is modelled as `List Char`.  The history extractor (the loop over
`git log` output in `analyze_file`), the line matcher (the loop over the
snapshot file), and the SQLite-backed aggregator (`INSERT OR IGNORE`
followed by `UPDATE ... number_lines+1`, on a table whose unique
constraint carries `ON CONFLICT IGNORE`) are embedded as executable
functions below, translated clause by clause from the source.
-/

namespace Water

/-- ASCII whitespace, as stripped by Python's `strip()`. -/
def isWS (c : Char) : Bool :=
  c == ' ' || c == '\t' || c == '\n' || c == '\r' || c == '\x0b' || c == '\x0c'

/-- Python `s.strip()`: drop leading and trailing whitespace. -/
def trim (l : List Char) : List Char :=
  ((l.dropWhile isWS).reverse.dropWhile isWS).reverse

/-- `line.find(p) == 0` in the source: `p` is a prefix of `l`. -/
def startsWith : List Char → List Char → Bool
  | [], _ => true
  | _ :: _, [] => false
  | p :: ps, c :: cs => p == c && startsWith ps cs

/-- Python `s.replace("'","\\'")`: each single quote becomes backslash-quote. -/
def escapeQuotes : List Char → List Char
  | [] => []
  | c :: t => if c == '\'' then '\\' :: '\'' :: escapeQuotes t else c :: escapeQuotes t

def diffPfx : List Char := ['d','i','f','f',' ','-','-','g','i','t',' ']
def indexPfx : List Char := ['i','n','d','e','x',' ']
def plus3Pfx : List Char := ['+','+','+',' ']
def minus3Pfx : List Char := ['-','-','-',' ']
def hunkPfx : List Char := ['@','@',' ','-']
def renamePfx : List Char := ['r','e','n','a','m','e',' ','t','o',' ']
def parentsPfx : List Char := ['p','a','r','e','n','t','s',':',' ']
def indentPfx : List Char := [' ',' ',' ',' ']
def hashPfx : List Char := ['h','a','s','h',':',' ']
def authorNamePfx : List Char := ['a','u','t','h','o','r','_','n','a','m','e',':']
def authorEmailPfx : List Char := ['a','u','t','h','o','r','_','e','m','a','i','l',':']
def authorDatePfx : List Char := ['a','u','t','h','o','r','_','d','a','t','e',':']
def committerNamePfx : List Char := ['c','o','m','m','i','t','t','e','r','_','n','a','m','e',':']
def committerEmailPfx : List Char := ['c','o','m','m','i','t','t','e','r','_','e','m','a','i','l',':']
def committerDatePfx : List Char := ['c','o','m','m','i','t','t','e','r','_','d','a','t','e',':']
def plusPfx : List Char := ['+']

/-- The `Bypass lines we don't need` clause of the log loop. -/
def isMeta (l : List Char) : Bool :=
  startsWith diffPfx l || startsWith indexPfx l || startsWith plus3Pfx l ||
  startsWith minus3Pfx l || startsWith hunkPfx l || startsWith renamePfx l ||
  startsWith parentsPfx l || startsWith indentPfx l

/-- One added line of one commit, as recorded in the `git_log` list
(the `patchline` namedtuple of the source). -/
structure PatchRecord where
  commit_hash : List Char
  author_name : List Char
  author_email : List Char
  author_date : List Char
  committer_name : List Char
  committer_email : List Char
  committer_date : List Char
  linetext : List Char
deriving Repr, DecidableEq

/-- Running commit context of the log loop.  The six identity fields are
initialised to `(Unknown)` before the loop; `commit_hash` is a local
variable with no default, modelled by `Option`. -/
structure PState where
  commit_hash : Option (List Char)
  author_name : List Char
  author_email : List Char
  author_date : List Char
  committer_name : List Char
  committer_email : List Char
  committer_date : List Char
deriving Repr, DecidableEq

def unknown : List Char := ['(','U','n','k','n','o','w','n',')']

def initState : PState :=
  ⟨none, unknown, unknown, unknown, unknown, unknown, unknown⟩

/-- One iteration of the log-parsing loop, on one nonempty-or-not line.
Mirrors the source's prefix-dispatch chain in order.  Reading the
commit hash before any `hash:` line has been seen is the Python
unbound-local error, modelled as `Except.error`. -/
def stepLine (st : PState) (l : List Char) : Except Unit (PState × Option PatchRecord) :=
  if l = [] then .ok (st, none)
  else if isMeta l then .ok (st, none)
  else if startsWith hashPfx l then
    .ok ({ st with commit_hash := some (l.drop 6) }, none)
  else if startsWith authorNamePfx l then
    .ok ({ st with author_name := escapeQuotes (l.drop 13) }, none)
  else if startsWith authorEmailPfx l then
    .ok ({ st with author_email := escapeQuotes (l.drop 14) }, none)
  else if startsWith authorDatePfx l then
    .ok ({ st with author_date := (l.drop 12).take 10 }, none)
  else if startsWith committerNamePfx l then
    .ok ({ st with committer_name := escapeQuotes (l.drop 16) }, none)
  else if startsWith committerEmailPfx l then
    .ok ({ st with committer_email := escapeQuotes (l.drop 17) }, none)
  else if startsWith committerDatePfx l then
    .ok ({ st with committer_date := (l.drop 16).take 10 }, none)
  else if startsWith plusPfx l && !(trim (l.drop 1)).isEmpty then
    match st.commit_hash with
    | none => .error ()
    | some h =>
      .ok (st, some ⟨h, st.author_name, st.author_email, st.author_date,
                    st.committer_name, st.committer_email, st.committer_date,
                    trim (l.drop 1)⟩)
  else .ok (st, none)

/-- The whole log loop: fold `stepLine` over the log lines, appending
each produced record to `git_log`. -/
def extractLog : List (List Char) → PState → List PatchRecord →
    Except Unit (PState × List PatchRecord)
  | [], st, recs => .ok (st, recs)
  | l :: rest, st, recs =>
    match stepLine st l with
    | .error e => .error e
    | .ok (st', none) => extractLog rest st' recs
    | .ok (st', some r) => extractLog rest st' (recs ++ [r])

/-- History extraction for one file: run the log loop from the per-file
initial state. -/
def extractHistory (log : List (List Char)) : Except Unit (List PatchRecord) :=
  match extractLog log initState [] with
  | .error e => .error e
  | .ok (_, recs) => .ok recs

/-- The line classified as an addition by the loop: not diff metadata,
begins with the addition marker, and has non-whitespace content after
trimming. -/
def isAdditionLine (l : List Char) : Bool :=
  !isMeta l && startsWith plusPfx l && !(trim (l.drop 1)).isEmpty

/-! ### Line matcher and aggregator -/

/-- The unique-constraint columns of the `data` table:
`(filename, author_name, author_email, author_date, committer_name,
committer_email, committer_date, commit_hash)`. -/
structure MatchKey where
  filename : List Char
  author_name : List Char
  author_email : List Char
  author_date : List Char
  committer_name : List Char
  committer_email : List Char
  committer_date : List Char
  commit_hash : List Char
deriving Repr, DecidableEq

/-- Key of the row inserted for a match of record `r` in file `fn`. -/
def keyOf (fn : List Char) (r : PatchRecord) : MatchKey :=
  ⟨fn, r.author_name, r.author_email, r.author_date,
   r.committer_name, r.committer_email, r.committer_date, r.commit_hash⟩

/-- A row of the in-memory table: key columns plus `number_lines`. -/
abbrev Row := MatchKey × Nat

abbrev Db := List Row

/-- Whether the table already holds a row with this key. -/
def hasKey (k : MatchKey) (db : Db) : Bool :=
  db.any (fun row => row.1 == k)

/-- `INSERT OR IGNORE ... VALUES (...,0)`: appends a zero-count row unless
a row with the same unique-constraint key exists. -/
def insertOrIgnore (k : MatchKey) (db : Db) : Db :=
  if hasKey k db then db else db ++ [(k, 0)]

/-- `UPDATE data SET number_lines = number_lines+1 WHERE <key columns>`. -/
def bumpRow (k : MatchKey) (db : Db) : Db :=
  db.map (fun row => if row.1 == k then (row.1, row.2 + 1) else row)

/-- One matched-line contribution: insert-if-absent, then increment. -/
def addMatch (k : MatchKey) (db : Db) : Db :=
  bumpRow k (insertOrIgnore k db)

/-- The aggregator run on a bare sequence of match contributions. -/
def processContribs (ks : List MatchKey) : Db :=
  ks.foldl (fun db k => addMatch k db) []

/-- The rows of the table carrying key `k`. -/
def rowsFor (k : MatchKey) (db : Db) : Db :=
  db.filter (fun row => row.1 == k)

/-- The inner loop over `git_log` with `break`: first record of the
(already reversed) history whose `linetext` equals the stripped line. -/
def findHit (revLog : List PatchRecord) (t : List Char) : Option PatchRecord :=
  revLog.find? (fun r => r.linetext == t)

/-- Provenance of a line text under the source's policy: reverse the
most-recent-first `git_log`, then stop at the first hit. -/
def provenance (gitLog : List PatchRecord) (t : List Char) : Option PatchRecord :=
  findHit gitLog.reverse t

/-- Per-file loop state: the table plus the two counters. -/
structure FileAcc where
  db : Db
  matched : Nat
  unmatched : Nat
deriving Repr, DecidableEq

/-- One iteration of the snapshot-file loop: skip a line shorter than the
sensitivity after stripping, otherwise match it against the reversed
history and record the outcome. -/
def stepFileLine (sens : Nat) (fn : List Char) (revLog : List PatchRecord)
    (acc : FileAcc) (l : List Char) : FileAcc :=
  if (trim l).length < sens then acc
  else
    match findHit revLog (trim l) with
    | some r => ⟨addMatch (keyOf fn r) acc.db, acc.matched + 1, acc.unmatched⟩
    | none => ⟨acc.db, acc.matched, acc.unmatched + 1⟩

/-- The whole snapshot-file loop, from the empty table and zeroed counters. -/
def matchPhase (sens : Nat) (fn : List Char) (gitLog : List PatchRecord)
    (lines : List (List Char)) : FileAcc :=
  lines.foldl (stepFileLine sens fn gitLog.reverse) ⟨[], 0, 0⟩

/-- A line qualifies when its stripped length is not below the sensitivity. -/
def qualifies (sens : Nat) (l : List Char) : Bool :=
  sens ≤ (trim l).length

/-- The keys of the matched qualifying lines, in the order they match. -/
def matchedKeys (sens : Nat) (fn : List Char) (gitLog : List PatchRecord)
    (lines : List (List Char)) : List MatchKey :=
  lines.filterMap (fun l =>
    if (trim l).length < sens then none
    else (findHit gitLog.reverse (trim l)).map (keyOf fn))

def unmatchedMarker : List Char := ['U','n','m','a','t','c','h','e','d']

def naHash : List Char := ['N','/','A']

/-- Key of the synthetic unmatched row of a file. -/
def unmatchedKey (fn : List Char) : MatchKey :=
  ⟨fn, unmatchedMarker, unmatchedMarker, unmatchedMarker,
   unmatchedMarker, unmatchedMarker, unmatchedMarker, naHash⟩

/-- `if unmatched: INSERT INTO data ...`.  The plain insert still passes
through the table-level `unique(...) ON CONFLICT IGNORE` clause, so it is
dropped when a row with the sentinel key already exists. -/
def emitRows (fn : List Char) (acc : FileAcc) : Db :=
  if acc.unmatched ≠ 0 then
    if hasKey (unmatchedKey fn) acc.db then acc.db
    else acc.db ++ [(unmatchedKey fn, acc.unmatched)]
  else acc.db

/-- Full per-file analysis for an already-extracted history: the flushed
rows plus the matched and unmatched counters. -/
def analyzeFile (sens : Nat) (fn : List Char) (gitLog : List PatchRecord)
    (lines : List (List Char)) : Db × Nat × Nat :=
  (emitRows fn (matchPhase sens fn gitLog lines),
   (matchPhase sens fn gitLog lines).matched,
   (matchPhase sens fn gitLog lines).unmatched)

/-! ### Dynamically-typed sensitivity

`sensitivity` starts as the integer `5`; the `-S` handler stores the raw
option string without conversion (`sensitivity = arg`).  Python 3 raises
`TypeError` on `int < str`, modelled here by `Except.error`. -/

inductive PyVal where
  | int (n : Int)
  | str (s : List Char)
deriving Repr, DecidableEq

/-- `len(fileline.strip()) < sensitivity` under Python 3 typing. -/
def pyLenLt (n : Nat) : PyVal → Except Unit Bool
  | .int m => .ok (decide ((n : Int) < m))
  | .str _ => .error ()

/-- What the `-S` option handler assigns: the raw argument string. -/
def parsedSensitivity (arg : List Char) : PyVal := .str arg

/-- The default configuration's sensitivity. -/
def defaultSensitivity : PyVal := .int 5

/-- The snapshot-file loop iteration with the comparison typed as in the
running program. -/
def stepFileLinePy (sens : PyVal) (fn : List Char) (revLog : List PatchRecord)
    (acc : FileAcc) (l : List Char) : Except Unit FileAcc :=
  match pyLenLt (trim l).length sens with
  | .error e => .error e
  | .ok short =>
    if short then .ok acc
    else
      match findHit revLog (trim l) with
      | some r => .ok ⟨addMatch (keyOf fn r) acc.db, acc.matched + 1, acc.unmatched⟩
      | none => .ok ⟨acc.db, acc.matched, acc.unmatched + 1⟩

/-- The snapshot-file loop with the comparison typed as in the running
program: any `TypeError` aborts the file's analysis. -/
def matchPhasePy (sens : PyVal) (fn : List Char) (gitLog : List PatchRecord)
    (lines : List (List Char)) : Except Unit FileAcc :=
  lines.foldlM (stepFileLinePy sens fn gitLog.reverse) ⟨[], 0, 0⟩

/-! ### Concrete inputs used by witnesses and counterexamples -/

/-- Oldest commit's record of the line `hello world` (witness for the
earliest-match policy). -/
def wOldestRec : PatchRecord :=
  ⟨"abc123".toList, "Alice".toList, "alice@x.com".toList, "2020-01-01".toList,
   "Alice".toList, "alice@x.com".toList, "2020-01-01".toList, "hello world".toList⟩

/-- Middle commit's record, of an unrelated line. -/
def wMiddleRec : PatchRecord :=
  ⟨"bcd234".toList, "Carol".toList, "carol@x.com".toList, "2020-06-01".toList,
   "Carol".toList, "carol@x.com".toList, "2020-06-01".toList, "other line".toList⟩

/-- Newest commit's record: the same `hello world` text re-added. -/
def wNewestRec : PatchRecord :=
  ⟨"def456".toList, "Bob".toList, "bob@x.com".toList, "2021-01-01".toList,
   "Bob".toList, "bob@x.com".toList, "2021-01-01".toList, "hello world".toList⟩

def wFn2 : List Char := "f.txt".toList

def wRec2 : PatchRecord :=
  ⟨"c1".toList, "A".toList, "a@x".toList, "2020-01-01".toList,
   "A".toList, "a@x".toList, "2020-01-01".toList, "hello world".toList⟩

def wK2 : MatchKey := keyOf wFn2 wRec2

def wLines2 : List (List Char) :=
  ["hello world".toList, "hi".toList, "hello world".toList]

/-- Log output of a pathological history whose one commit reports hash
`N/A` and all six identity fields `Unmatched` — the exact sentinel key
reserved for the unmatched row. -/
def ceLogC5 : List (List Char) :=
  ["hash: N/A".toList,
   "author_name: Unmatched".toList,
   "author_email: Unmatched".toList,
   "author_date:Unmatched".toList,
   "committer_name: Unmatched".toList,
   "committer_email: Unmatched".toList,
   "committer_date: Unmatched".toList,
   "+hello world".toList]

def ceFnC5 : List Char := "f.txt".toList

/-- Snapshot: two qualifying lines matching the pathological commit and
one qualifying line matching nothing. -/
def ceLinesC5 : List (List Char) :=
  ["hello world".toList, "hello world".toList, "zzzzzz".toList]

/-- End-to-end run of the pathological file: extract its history, then
analyze the snapshot against it. -/
def ceResultC5 : Option (Db × Nat × Nat) :=
  match extractHistory ceLogC5 with
  | .error _ => none
  | .ok recs => some (analyzeFile 5 ceFnC5 recs ceLinesC5)

def wFn5 : List Char := "g.txt".toList

/-- Five qualifying snapshot lines for the empty-history scenario. -/
def wLines5 : List (List Char) :=
  ["first line of code".toList, "second line of code".toList,
   "third line of code".toList, "fourth line of code".toList,
   "fifth line of code".toList]

/-- Selector for the six identity fields of the running commit context,
used to state field-wise parser invariants. -/
inductive HeaderField where
  | authorName
  | authorEmail
  | authorDate
  | committerName
  | committerEmail
  | committerDate
deriving DecidableEq, Repr

def HeaderField.pfx : HeaderField → List Char
  | .authorName => authorNamePfx
  | .authorEmail => authorEmailPfx
  | .authorDate => authorDatePfx
  | .committerName => committerNamePfx
  | .committerEmail => committerEmailPfx
  | .committerDate => committerDatePfx

def HeaderField.ofState : HeaderField → PState → List Char
  | .authorName, st => st.author_name
  | .authorEmail, st => st.author_email
  | .authorDate, st => st.author_date
  | .committerName, st => st.committer_name
  | .committerEmail, st => st.committer_email
  | .committerDate, st => st.committer_date

def HeaderField.ofRecord : HeaderField → PatchRecord → List Char
  | .authorName, r => r.author_name
  | .authorEmail, r => r.author_email
  | .authorDate, r => r.author_date
  | .committerName, r => r.committer_name
  | .committerEmail, r => r.committer_email
  | .committerDate, r => r.committer_date

/-- Log with one addition, one removal, one `+++` metadata line, the
`EndPatch` marker, and a whitespace-only addition. -/
def wLogC6 : List (List Char) :=
  ["hash: abc".toList, "+hello world".toList, "-removed line".toList,
   "+++ b/file".toList, "EndPatch".toList, "+  ".toList]

def wRecsC6 : List PatchRecord :=
  [⟨"abc".toList, unknown, unknown, unknown, unknown, unknown, unknown,
    "hello world".toList⟩]

/-- Log in which the second commit's header sets no identity fields
before its addition line. -/
def ceLogC7 : List (List Char) :=
  ["hash: aaa".toList, "author_name: Alice".toList, "+first added line".toList,
   "hash: bbb".toList, "+second added line".toList]

def wLogC7 : List (List Char) :=
  ["hash: ccc".toList, "+some added line".toList]

def wLogC10 : List (List Char) :=
  ["author_name: Alice".toList, "+orphan added line".toList]

/-- Per-file re-initialisation at the top of the filename loop: the six
identity fields get fresh `(Unknown)` defaults, but `commit_hash` — a
plain function-local of `analyze_file`, assigned only on `hash:` lines —
is NOT reset and carries over from earlier files of the same batch. -/
def resetIdentity (st : PState) : PState :=
  ⟨st.commit_hash, unknown, unknown, unknown, unknown, unknown, unknown⟩

/-- History extraction for one file inside a batch: the identity fields
are re-defaulted, the carried commit hash is kept, and the final state is
handed to the next file of the batch. -/
def extractFileCarry (st : PState) (log : List (List Char)) :
    Except Unit (List PatchRecord × PState) :=
  match extractLog log (resetIdentity st) [] with
  | .error e => .error e
  | .ok (st', recs) => .ok (recs, st')

/-- First file of a two-file batch: its log sets `hash: aaa`. -/
def ceBatchLogA : List (List Char) :=
  ["hash: aaa".toList, "+line from first file".toList]

/-- Second file of the batch: its whole log is one addition line, with no
`hash:` line anywhere before it. -/
def ceBatchLogB : List (List Char) :=
  ["+orphan added line".toList]

/-- The batch run: extract the first file's history, then the second
file's history from the carried state. -/
def ceBatchResult : Except Unit (List PatchRecord × PState) :=
  match extractFileCarry initState ceBatchLogA with
  | .error e => .error e
  | .ok (_, st1) => extractFileCarry st1 ceBatchLogB

/-! ## Theorems -/

/-- Claim C1: for a most-recent-first history, the matcher reverses to
oldest-first and stops at the first hit, so the oldest record carrying
the line's trimmed text — the last such record of the most-recent-first
sequence — is the provenance. -/
theorem C1_earliest_match (gitLog : List PatchRecord) (t : List Char)
    (newer older : List PatchRecord) (r : PatchRecord)
    (hsplit : gitLog = newer ++ r :: older) (hr : r.linetext = t)
    (holder : ∀ r' ∈ older, r'.linetext ≠ t) :
    provenance gitLog t = some r := by
  subst hsplit
  have holder' : older.reverse.find? (fun r' => r'.linetext == t) = none := by
    rw [List.find?_eq_none]
    intro x hx
    simp only [List.mem_reverse] at hx
    simp [holder x hx]
  unfold provenance findHit
  rw [List.reverse_append, List.reverse_cons, List.find?_append, List.find?_append,
    holder']
  simp [List.find?_cons, hr]

/-- Witness: a text added by Alice in the oldest commit and re-added
verbatim by Bob in the newest commit resolves to Alice's commit. -/
theorem C1_earliest_match_witness :
    ([wNewestRec, wMiddleRec] ++ wOldestRec :: [] = [wNewestRec, wMiddleRec, wOldestRec])
    ∧ provenance [wNewestRec, wMiddleRec, wOldestRec] ("hello world".toList) =
        some wOldestRec :=
  ⟨rfl, C1_earliest_match _ _ [wNewestRec, wMiddleRec] [] wOldestRec rfl rfl
    (by simp)⟩

/-! ### Aggregator lemmas -/

lemma rowsFor_append (k : MatchKey) (db₁ db₂ : Db) :
    rowsFor k (db₁ ++ db₂) = rowsFor k db₁ ++ rowsFor k db₂ := by
  simp [rowsFor]

lemma hasKey_eq_false_iff (k : MatchKey) (db : Db) :
    hasKey k db = false ↔ rowsFor k db = [] := by
  simp [hasKey, rowsFor, List.filter_eq_nil_iff, List.any_eq_false]

lemma rowsFor_bumpRow_self (k : MatchKey) (db : Db) :
    rowsFor k (bumpRow k db) = (rowsFor k db).map (fun row => (row.1, row.2 + 1)) := by
  induction db with
  | nil => rfl
  | cons x tl ih =>
    by_cases h : x.1 = k
    · simp [bumpRow, rowsFor, List.filter_cons, h] at ih ⊢
      exact ih
    · simp [bumpRow, rowsFor, List.filter_cons, h] at ih ⊢
      exact ih

lemma rowsFor_bumpRow_ne (k k' : MatchKey) (db : Db) (h : k' ≠ k) :
    rowsFor k (bumpRow k' db) = rowsFor k db := by
  have h' : k ≠ k' := Ne.symm h
  induction db with
  | nil => rfl
  | cons x tl ih =>
    by_cases hx : x.1 = k'
    · have hxk : x.1 ≠ k := by rw [hx]; exact h
      simp [bumpRow, rowsFor, List.filter_cons, hx, hxk, h, h'] at ih ⊢
      exact ih
    · by_cases hk : x.1 = k
      · simp [bumpRow, rowsFor, List.filter_cons, hx, hk, h, h'] at ih ⊢
        exact ih
      · simp [bumpRow, rowsFor, List.filter_cons, hx, hk, h, h'] at ih ⊢
        exact ih

lemma insertOrIgnore_present (k : MatchKey) (db : Db) (h : hasKey k db = true) :
    insertOrIgnore k db = db := by
  simp [insertOrIgnore, h]

lemma rowsFor_insertOrIgnore_ne (k k' : MatchKey) (db : Db) (h : k' ≠ k) :
    rowsFor k (insertOrIgnore k' db) = rowsFor k db := by
  unfold insertOrIgnore
  split
  · rfl
  · rw [rowsFor_append]
    simp [rowsFor, List.filter_cons, h]

lemma rowsFor_addMatch_ne (k k' : MatchKey) (db : Db) (h : k' ≠ k) :
    rowsFor k (addMatch k' db) = rowsFor k db := by
  unfold addMatch
  rw [rowsFor_bumpRow_ne _ _ _ h, rowsFor_insertOrIgnore_ne _ _ _ h]

lemma rowsFor_addMatch_absent (k : MatchKey) (db : Db) (h : rowsFor k db = []) :
    rowsFor k (addMatch k db) = [(k, 1)] := by
  have hk : hasKey k db = false := (hasKey_eq_false_iff k db).2 h
  unfold addMatch insertOrIgnore
  rw [hk]
  simp only [Bool.false_eq_true, if_false]
  rw [rowsFor_bumpRow_self, rowsFor_append, h]
  simp [rowsFor, List.filter_cons]

lemma rowsFor_addMatch_present (k : MatchKey) (db : Db) (m : Nat)
    (h : rowsFor k db = [(k, m)]) :
    rowsFor k (addMatch k db) = [(k, m + 1)] := by
  have hk : hasKey k db = true := by
    cases hb : hasKey k db with
    | true => rfl
    | false => rw [(hasKey_eq_false_iff k db).1 hb] at h; exact absurd h (by simp)
  unfold addMatch
  rw [insertOrIgnore_present k db hk, rowsFor_bumpRow_self, h]
  rfl

lemma rowsFor_foldl_addMatch (k : MatchKey) (ks : List MatchKey) : ∀ db : Db,
    (rowsFor k db = [] →
      rowsFor k (ks.foldl (fun d kk => addMatch kk d) db) =
        (if ks.count k = 0 then [] else [(k, ks.count k)]))
    ∧ (∀ m : Nat, rowsFor k db = [(k, m)] →
      rowsFor k (ks.foldl (fun d kk => addMatch kk d) db) = [(k, m + ks.count k)]) := by
  induction ks with
  | nil =>
    intro db
    exact ⟨fun h => by simpa using h, fun m h => by simpa using h⟩
  | cons kk ks ih =>
    intro db
    constructor
    · intro h
      by_cases hkk : kk = k
      · subst hkk
        have h1 := rowsFor_addMatch_absent kk db h
        have h2 := (ih (addMatch kk db)).2 1 h1
        rw [List.foldl_cons, h2]
        simp [List.count_cons]
        omega
      · have h1 : rowsFor k (addMatch kk db) = [] := by
          rw [rowsFor_addMatch_ne k kk db hkk]; exact h
        have h2 := (ih (addMatch kk db)).1 h1
        rw [List.foldl_cons, h2]
        simp [List.count_cons, hkk]
    · intro m h
      by_cases hkk : kk = k
      · subst hkk
        have h1 := rowsFor_addMatch_present kk db m h
        have h2 := (ih (addMatch kk db)).2 (m + 1) h1
        rw [List.foldl_cons, h2]
        simp [List.count_cons]
        omega
      · have h1 : rowsFor k (addMatch kk db) = [(k, m)] := by
          rw [rowsFor_addMatch_ne k kk db hkk]; exact h
        have h2 := (ih (addMatch kk db)).2 m h1
        rw [List.foldl_cons, h2]
        simp [List.count_cons, hkk]

lemma foldl_stepFileLine_db (sens : Nat) (fn : List Char) (revLog : List PatchRecord) :
    ∀ (lines : List (List Char)) (acc : FileAcc),
    (lines.foldl (stepFileLine sens fn revLog) acc).db =
      (lines.filterMap (fun l => if (trim l).length < sens then none
        else (findHit revLog (trim l)).map (keyOf fn))).foldl
          (fun d kk => addMatch kk d) acc.db := by
  intro lines
  induction lines with
  | nil => intro acc; rfl
  | cons l ls ih =>
    intro acc
    by_cases h : (trim l).length < sens
    · simp [stepFileLine, h, ih]
    · cases hf : findHit revLog (trim l) with
      | none => simp [stepFileLine, h, hf, ih]
      | some r => simp [stepFileLine, h, hf, ih]

lemma matchPhase_db (sens : Nat) (fn : List Char) (gitLog : List PatchRecord)
    (lines : List (List Char)) :
    (matchPhase sens fn gitLog lines).db =
      (matchedKeys sens fn gitLog lines).foldl (fun d kk => addMatch kk d) [] := by
  unfold matchPhase matchedKeys
  exact foldl_stepFileLine_db sens fn gitLog.reverse lines ⟨[], 0, 0⟩

/-- Claim C2: per file, matched lines sharing one MatchKey end in exactly
one aggregate row whose count equals the number of such lines (the filter
of the final table on that key is exactly one row carrying the
occurrence count of the key among the matched lines, and empty when the
key never matched), and the insert step is a no-op on a table that
already holds the key. -/
theorem C2_dedup_invariant (sens : Nat) (fn : List Char) (gitLog : List PatchRecord)
    (lines : List (List Char)) (k : MatchKey) :
    (rowsFor k (matchPhase sens fn gitLog lines).db =
      (if (matchedKeys sens fn gitLog lines).count k = 0 then []
       else [(k, (matchedKeys sens fn gitLog lines).count k)]))
    ∧ (∀ db : Db, hasKey k db = true → insertOrIgnore k db = db)
    ∧ (∀ ks' : List MatchKey, (matchedKeys sens fn gitLog lines).Perm ks' →
        rowsFor k (processContribs ks') =
          rowsFor k (processContribs (matchedKeys sens fn gitLog lines))) := by
  refine ⟨?_, ?_, ?_⟩
  · rw [matchPhase_db]
    exact (rowsFor_foldl_addMatch k (matchedKeys sens fn gitLog lines) []).1 rfl
  · intro db h
    exact insertOrIgnore_present k db h
  · intro ks' hperm
    unfold processContribs
    rw [(rowsFor_foldl_addMatch k ks' []).1 rfl,
      (rowsFor_foldl_addMatch k (matchedKeys sens fn gitLog lines) []).1 rfl,
      hperm.count_eq k]

/-- Witness: two qualifying `hello world` lines matching the same record
yield one row with count 2, and re-inserting its key is a no-op. -/
theorem C2_dedup_invariant_witness :
    rowsFor wK2 (matchPhase 5 wFn2 [wRec2] wLines2).db = [(wK2, 2)]
    ∧ insertOrIgnore wK2 [(wK2, 2)] = [(wK2, 2)] :=
  ⟨by rw [(C2_dedup_invariant 5 wFn2 [wRec2] wLines2 wK2).1]; rfl,
   (C2_dedup_invariant 5 wFn2 [wRec2] wLines2 wK2).2.1 [(wK2, 2)] (by decide)⟩

/-! ### Sensitivity typing and completeness of the counters -/

lemma stepFileLinePy_int (s : Nat) (fn : List Char) (revLog : List PatchRecord)
    (acc : FileAcc) (l : List Char) :
    stepFileLinePy (.int (s : Int)) fn revLog acc l =
      .ok (stepFileLine s fn revLog acc l) := by
  by_cases h : (trim l).length < s
  · have h' : ((trim l).length : Int) < (s : Int) := by exact_mod_cast h
    simp [stepFileLinePy, pyLenLt, stepFileLine, h, h']
  · have h' : ¬ (((trim l).length : Int) < (s : Int)) := by exact_mod_cast h
    simp [stepFileLinePy, pyLenLt, stepFileLine, h, h']
    cases findHit revLog (trim l) <;> rfl

/-- In the default configuration (`sensitivity = 5`, an integer) the
dynamically-typed loop runs without error and computes `matchPhase 5`. -/
lemma matchPhasePy_default (fn : List Char) (gitLog : List PatchRecord)
    (lines : List (List Char)) :
    matchPhasePy defaultSensitivity fn gitLog lines =
      .ok (matchPhase 5 fn gitLog lines) := by
  unfold matchPhasePy matchPhase defaultSensitivity
  suffices h : ∀ (ls : List (List Char)) (acc : FileAcc),
      ls.foldlM (stepFileLinePy (.int 5) fn gitLog.reverse) acc =
        .ok (ls.foldl (stepFileLine 5 fn gitLog.reverse) acc) from h lines ⟨[], 0, 0⟩
  intro ls
  induction ls with
  | nil => intro acc; rfl
  | cons l t ih =>
    intro acc
    rw [List.foldlM_cons]
    have h5 : (.int 5 : PyVal) = .int ((5 : Nat) : Int) := rfl
    rw [h5, stepFileLinePy_int]
    show t.foldlM (stepFileLinePy (.int ((5 : Nat) : Int)) fn gitLog.reverse) _ = _
    rw [← h5, ih]
    rfl

/-- Claim C3 (evidence of the code bug): with any configured `-S`
sensitivity — stored by the option handler as the raw string — the very
first snapshot line raises the `int < str` comparison error, so the
file's analysis aborts instead of filtering short lines. -/
theorem C3_configured_sensitivity_type_error (arg fn : List Char)
    (gitLog : List PatchRecord) (l : List Char) (rest : List (List Char)) :
    matchPhasePy (parsedSensitivity arg) fn gitLog (l :: rest) = .error () := rfl

lemma foldl_stepFileLine_counters (sens : Nat) (fn : List Char)
    (revLog : List PatchRecord) :
    ∀ (lines : List (List Char)) (acc : FileAcc),
    (lines.foldl (stepFileLine sens fn revLog) acc).matched +
      (lines.foldl (stepFileLine sens fn revLog) acc).unmatched =
      acc.matched + acc.unmatched + (lines.filter (qualifies sens)).length := by
  intro lines
  induction lines with
  | nil => intro acc; simp
  | cons l ls ih =>
    intro acc
    by_cases h : (trim l).length < sens
    · have hq : qualifies sens l = false := by
        simp [qualifies]
        omega
      simp only [List.foldl_cons, List.filter_cons, hq, Bool.false_eq_true, if_false]
      rw [stepFileLine, if_pos h]
      exact ih acc
    · have hq : qualifies sens l = true := by
        simp [qualifies]
        omega
      simp only [List.foldl_cons, List.filter_cons, hq, if_true]
      rw [stepFileLine, if_neg h]
      cases hf : findHit revLog (trim l) with
      | none =>
        rw [ih ⟨acc.db, acc.matched, acc.unmatched + 1⟩]
        simp
        omega
      | some r =>
        rw [ih ⟨addMatch (keyOf fn r) acc.db, acc.matched + 1, acc.unmatched⟩]
        simp
        omega

/-- Claim C4: once every snapshot line is classified, the matched counter
plus the unmatched counter equals the number of qualifying lines of the
file. -/
theorem C4_completeness (sens : Nat) (fn : List Char) (gitLog : List PatchRecord)
    (lines : List (List Char)) :
    (matchPhase sens fn gitLog lines).matched +
      (matchPhase sens fn gitLog lines).unmatched =
      (lines.filter (qualifies sens)).length := by
  unfold matchPhase
  simpa using foldl_stepFileLine_counters sens fn gitLog.reverse lines ⟨[], 0, 0⟩

/-! ### Unmatched-row emission -/

lemma mem_addMatch (k : MatchKey) (db : Db) :
    ∀ row ∈ addMatch k db, row.1 = k ∨ ∃ row' ∈ db, row.1 = row'.1 := by
  intro row hrow
  unfold addMatch bumpRow insertOrIgnore at hrow
  have hfst : ∀ a : Row, ((if a.1 == k then (a.1, a.2 + 1) else a) : Row).1 = a.1 := by
    intro a
    by_cases hc : a.1 = k <;> simp [hc]
  split at hrow
  · rcases List.mem_map.1 hrow with ⟨a, ha, rfl⟩
    right
    exact ⟨a, ha, hfst a⟩
  · rcases List.mem_map.1 hrow with ⟨a, ha, rfl⟩
    rcases List.mem_append.1 ha with ha' | ha'
    · right
      exact ⟨a, ha', hfst a⟩
    · left
      have : a = (k, 0) := by simpa using ha'
      rw [hfst a, this]

lemma foldl_stepFileLine_keys (sens : Nat) (fn : List Char) (revLog : List PatchRecord) :
    ∀ (lines : List (List Char)) (acc : FileAcc),
    (∀ row ∈ acc.db, ∃ r ∈ revLog, row.1 = keyOf fn r) →
    ∀ row ∈ (lines.foldl (stepFileLine sens fn revLog) acc).db,
      ∃ r ∈ revLog, row.1 = keyOf fn r := by
  intro lines
  induction lines with
  | nil => intro acc hacc; exact hacc
  | cons l ls ih =>
    intro acc hacc
    by_cases h : (trim l).length < sens
    · rw [List.foldl_cons, stepFileLine, if_pos h]
      exact ih acc hacc
    · rw [List.foldl_cons, stepFileLine, if_neg h]
      cases hf : findHit revLog (trim l) with
      | none => exact ih _ hacc
      | some r =>
        refine ih _ ?_
        intro row hrow
        rcases mem_addMatch (keyOf fn r) acc.db row hrow with hk | ⟨row', hrow', heq⟩
        · exact ⟨r, List.mem_of_find?_eq_some hf, hk⟩
        · rcases hacc row' hrow' with ⟨r', hr', hk'⟩
          exact ⟨r', hr', heq.trans hk'⟩

lemma matchPhase_keys (sens : Nat) (fn : List Char) (gitLog : List PatchRecord)
    (lines : List (List Char)) :
    ∀ row ∈ (matchPhase sens fn gitLog lines).db, ∃ r ∈ gitLog, row.1 = keyOf fn r := by
  intro row hrow
  have := foldl_stepFileLine_keys sens fn gitLog.reverse lines ⟨[], 0, 0⟩
    (by intro row h; exact absurd h (by simp)) row hrow
  rcases this with ⟨r, hr, hk⟩
  exact ⟨r, List.mem_reverse.1 hr, hk⟩

lemma matchPhase_no_sentinel (sens : Nat) (fn : List Char) (gitLog : List PatchRecord)
    (lines : List (List Char)) (hhash : ∀ r ∈ gitLog, r.commit_hash ≠ naHash) :
    hasKey (unmatchedKey fn) (matchPhase sens fn gitLog lines).db = false := by
  cases hb : hasKey (unmatchedKey fn) (matchPhase sens fn gitLog lines).db with
  | false => rfl
  | true =>
    exfalso
    rcases (List.any_eq_true).1 hb with ⟨row, hrow, hbeq⟩
    have hkeq : row.1 = unmatchedKey fn := by simpa using hbeq
    rcases matchPhase_keys sens fn gitLog lines row hrow with ⟨r, hr, hk⟩
    have : r.commit_hash = naHash := by
      have := hk.symm.trans hkeq
      exact congrArg MatchKey.commit_hash this
    exact hhash r hr this

lemma matchPhase_nil_history (sens : Nat) (fn : List Char) (lines : List (List Char)) :
    matchPhase sens fn [] lines = ⟨[], 0, (lines.filter (qualifies sens)).length⟩ := by
  unfold matchPhase
  suffices h : ∀ (ls : List (List Char)) (acc : FileAcc),
      ls.foldl (stepFileLine sens fn (([] : List PatchRecord).reverse)) acc =
        ⟨acc.db, acc.matched, acc.unmatched + (ls.filter (qualifies sens)).length⟩ by
    simpa using h lines ⟨[], 0, 0⟩
  intro ls
  induction ls with
  | nil => intro acc; simp
  | cons l t ih =>
    intro acc
    by_cases h : (trim l).length < sens
    · have hq : qualifies sens l = false := by simp [qualifies]; omega
      rw [List.foldl_cons, stepFileLine, if_pos h, ih acc]
      simp [List.filter_cons, hq]
    · have hq : qualifies sens l = true := by simp [qualifies]; omega
      rw [List.foldl_cons, stepFileLine, if_neg h]
      have hf : findHit (([] : List PatchRecord).reverse) (trim l) = none := rfl
      rw [hf, ih]
      simp [List.filter_cons, hq]
      omega

lemma rowsFor_emitRows (fn : List Char) (acc : FileAcc)
    (hK : hasKey (unmatchedKey fn) acc.db = false) :
    rowsFor (unmatchedKey fn) (emitRows fn acc) =
      (if acc.unmatched = 0 then [] else [(unmatchedKey fn, acc.unmatched)]) := by
  have hR := (hasKey_eq_false_iff (unmatchedKey fn) acc.db).1 hK
  unfold emitRows
  by_cases hu : acc.unmatched = 0
  · simp [hu, hR]
  · rw [if_pos hu, hK, if_neg Bool.false_ne_true, rowsFor_append, hR]
    simp [rowsFor, List.filter_cons, hu]

/-- Claim C5 (counterexample): a history whose one commit reports hash
`N/A` and identity `Unmatched` already occupies the sentinel key, so with
two lines matched to it and one unmatched line, the unmatched insert is
dropped by `ON CONFLICT IGNORE`: the unmatched counter is 1 yet no
emitted row carries `numberOfLines = 1`. -/
theorem C5_counterexample :
    ceResultC5 = some ([(unmatchedKey ceFnC5, 2)], 2, 1)
    ∧ (1 : Nat) ≠ 0
    ∧ ([(unmatchedKey ceFnC5, 2)] : Db).filter (fun row => row.2 == 1) = [] := by
  refine ⟨by decide, by decide, by decide⟩

/-- Claim C5 as amended: provided no history record reports commit hash
`N/A` (true of genuine git output, where the sentinel key cannot occur
among aggregate rows), exactly one unmatched row — sentinel identity,
hash `N/A`, count equal to the unmatched counter — is emitted iff the
unmatched counter is positive; and a file with empty history ends with
zero aggregate rows, zero matched, and, when it has qualifying lines,
exactly the one unmatched row counting all of them. -/
theorem C5_unmatched_row_amended (sens : Nat) (fn : List Char)
    (gitLog : List PatchRecord) (lines : List (List Char))
    (hhash : ∀ r ∈ gitLog, r.commit_hash ≠ naHash) :
    (rowsFor (unmatchedKey fn) (analyzeFile sens fn gitLog lines).1 =
      (if (analyzeFile sens fn gitLog lines).2.2 = 0 then []
       else [(unmatchedKey fn, (analyzeFile sens fn gitLog lines).2.2)]))
    ∧ (gitLog = [] →
        analyzeFile sens fn gitLog lines =
          (if (lines.filter (qualifies sens)).length = 0 then []
           else [(unmatchedKey fn, (lines.filter (qualifies sens)).length)],
           0, (lines.filter (qualifies sens)).length)) := by
  have hK := matchPhase_no_sentinel sens fn gitLog lines hhash
  constructor
  · exact rowsFor_emitRows fn (matchPhase sens fn gitLog lines) hK
  · intro hnil
    subst hnil
    unfold analyzeFile
    rw [matchPhase_nil_history]
    by_cases hq : (lines.filter (qualifies sens)).length = 0
    · simp [hq, emitRows, hasKey]
    · simp [hq, emitRows, hasKey]

/-- Witness: empty history with five qualifying lines yields zero
aggregate rows and one unmatched row counting all five. -/
theorem C5_unmatched_row_amended_witness :
    (∀ r ∈ ([] : List PatchRecord), r.commit_hash ≠ naHash)
    ∧ analyzeFile 5 wFn5 [] wLines5 = ([(unmatchedKey wFn5, 5)], 0, 5) := by
  refine ⟨by simp, ?_⟩
  have h := (C5_unmatched_row_amended 5 wFn5 [] wLines5 (by simp)).2 rfl
  rw [h]
  rfl

/-! ### Extractor lemmas -/

lemma startsWith_append_self (p v : List Char) : startsWith p (p ++ v) = true := by
  induction p with
  | nil => rfl
  | cons c cs ih => simp [startsWith, ih]

lemma startsWith_plus_head {l : List Char} (h : startsWith plusPfx l = true) :
    ∃ t, l = '+' :: t := by
  cases l with
  | nil => exact absurd h (by simp [startsWith, plusPfx])
  | cons c cs =>
    refine ⟨cs, ?_⟩
    have : ('+' == c) = true := by
      simpa [startsWith, plusPfx] using h
    have : '+' = c := by simpa using this
    rw [← this]

lemma isAdditionLine_elim {l : List Char} (h : isAdditionLine l = true) :
    isMeta l = false ∧ startsWith plusPfx l = true ∧ (trim (l.drop 1)).isEmpty = false := by
  unfold isAdditionLine at h
  rcases Bool.and_eq_true_iff.1 h with ⟨h1, h3⟩
  rcases Bool.and_eq_true_iff.1 h1 with ⟨h0, h2⟩
  refine ⟨by simpa using h0, h2, by simpa using h3⟩

lemma stepLine_addition (st : PState) (l : List Char) (h : isAdditionLine l = true) :
    stepLine st l =
      match st.commit_hash with
      | none => .error ()
      | some hh => .ok (st, some ⟨hh, st.author_name, st.author_email, st.author_date,
          st.committer_name, st.committer_email, st.committer_date, trim (l.drop 1)⟩) := by
  rcases isAdditionLine_elim h with ⟨hmeta, hplus, hne⟩
  obtain ⟨t, rfl⟩ := startsWith_plus_head hplus
  have hne' : trim t ≠ [] := by simpa using hne
  unfold stepLine
  rw [if_neg (by simp), if_neg (by simp [hmeta]),
    if_neg (by simp [startsWith, hashPfx]),
    if_neg (by simp [startsWith, authorNamePfx]),
    if_neg (by simp [startsWith, authorEmailPfx]),
    if_neg (by simp [startsWith, authorDatePfx]),
    if_neg (by simp [startsWith, committerNamePfx]),
    if_neg (by simp [startsWith, committerEmailPfx]),
    if_neg (by simp [startsWith, committerDatePfx]),
    if_pos (by simp [hplus, hne'])]

lemma stepLine_not_addition (st : PState) (l : List Char) (h : isAdditionLine l = false) :
    ∃ st', stepLine st l = .ok (st', none) := by
  unfold stepLine
  by_cases h0 : l = []
  · exact ⟨st, by rw [if_pos h0]⟩
  rw [if_neg h0]
  by_cases h1 : isMeta l
  · exact ⟨st, by rw [if_pos h1]⟩
  rw [if_neg h1]
  by_cases h2 : startsWith hashPfx l
  · exact ⟨_, by rw [if_pos h2]⟩
  rw [if_neg h2]
  by_cases h3 : startsWith authorNamePfx l
  · exact ⟨_, by rw [if_pos h3]⟩
  rw [if_neg h3]
  by_cases h4 : startsWith authorEmailPfx l
  · exact ⟨_, by rw [if_pos h4]⟩
  rw [if_neg h4]
  by_cases h5 : startsWith authorDatePfx l
  · exact ⟨_, by rw [if_pos h5]⟩
  rw [if_neg h5]
  by_cases h6 : startsWith committerNamePfx l
  · exact ⟨_, by rw [if_pos h6]⟩
  rw [if_neg h6]
  by_cases h7 : startsWith committerEmailPfx l
  · exact ⟨_, by rw [if_pos h7]⟩
  rw [if_neg h7]
  by_cases h8 : startsWith committerDatePfx l
  · exact ⟨_, by rw [if_pos h8]⟩
  rw [if_neg h8]
  have h9 : (startsWith plusPfx l && !(trim (l.drop 1)).isEmpty) = false := by
    have h1' : isMeta l = false := by
      cases hv : isMeta l with
      | false => rfl
      | true => exact absurd hv h1
    unfold isAdditionLine at h
    rw [h1'] at h
    simpa using h
  rw [h9]
  exact ⟨st, by rw [if_neg (by simp)]⟩

lemma extractLog_append (xs ys : List (List Char)) : ∀ (st : PState)
    (recs : List PatchRecord),
    extractLog (xs ++ ys) st recs =
      (match extractLog xs st recs with
       | .error e => .error e
       | .ok (st', recs') => extractLog ys st' recs') := by
  induction xs with
  | nil => intro st recs; rfl
  | cons l t ih =>
    intro st recs
    cases hs : stepLine st l with
    | error e => simp [extractLog, hs]
    | ok p =>
      obtain ⟨st₁, o⟩ := p
      cases o with
      | none => simp [extractLog, hs, ih]
      | some r => simp [extractLog, hs, ih]

lemma extractLog_linetexts : ∀ (log : List (List Char)) (st : PState)
    (recs : List PatchRecord) (st' : PState) (recs' : List PatchRecord),
    extractLog log st recs = .ok (st', recs') →
    recs'.map (fun r => r.linetext) =
      recs.map (fun r => r.linetext) ++
        (log.filter isAdditionLine).map (fun l => trim (l.drop 1)) := by
  intro log
  induction log with
  | nil =>
    intro st recs st' recs' h
    simp only [extractLog, Except.ok.injEq, Prod.mk.injEq] at h
    obtain ⟨h1, h2⟩ := h
    subst h2
    simp
  | cons l t ih =>
    intro st recs st' recs' h
    cases ha : isAdditionLine l with
    | false =>
      obtain ⟨st₁, hs⟩ := stepLine_not_addition st l ha
      simp only [extractLog, hs] at h
      rw [ih st₁ recs st' recs' h]
      simp [List.filter_cons, ha]
    | true =>
      have hs := stepLine_addition st l ha
      cases hh : st.commit_hash with
      | none =>
        rw [hh] at hs
        simp only [extractLog, hs] at h
        exact absurd h (by simp)
      | some hhv =>
        rw [hh] at hs
        simp only [extractLog, hs] at h
        rw [ih _ _ _ _ h]
        simp [List.filter_cons, ha]

/-- Claim C6: a successful extraction records one PatchRecord per
addition line — a line that is not diff metadata, begins with the
addition marker, and has non-whitespace content after trimming — with
`linetext` the trimmed content, and records nothing for any other line. -/
theorem C6_additions_recorded (log : List (List Char)) (recs : List PatchRecord)
    (h : extractHistory log = .ok recs) :
    recs.map (fun r => r.linetext) =
      (log.filter isAdditionLine).map (fun l => trim (l.drop 1)) := by
  unfold extractHistory at h
  cases hE : extractLog log initState [] with
  | error e => rw [hE] at h; exact absurd h (by simp)
  | ok p =>
    obtain ⟨st', recs'⟩ := p
    rw [hE] at h
    have hr : recs' = recs := by simpa using h
    subst hr
    simpa using extractLog_linetexts log initState [] st' recs' hE

/-- Witness: the log with one addition, a removal, `+++` metadata,
`EndPatch` and a whitespace-only addition records exactly the one
addition. -/
theorem C6_additions_recorded_witness :
    extractHistory wLogC6 = .ok wRecsC6
    ∧ wRecsC6.map (fun r => r.linetext) =
        (wLogC6.filter isAdditionLine).map (fun l => trim (l.drop 1)) :=
  ⟨rfl, C6_additions_recorded wLogC6 wRecsC6 rfl⟩

/-- Exhaustive description of one parsing step: either a no-op, one of
the eight header updates (each tagged with its guard), the unbound-hash
error, or a produced record. -/
lemma stepLine_shape (st : PState) (l : List Char) :
    stepLine st l = .ok (st, none)
    ∨ (startsWith hashPfx l = true ∧
        stepLine st l = .ok ({ st with commit_hash := some (l.drop 6) }, none))
    ∨ (startsWith authorNamePfx l = true ∧
        stepLine st l = .ok ({ st with author_name := escapeQuotes (l.drop 13) }, none))
    ∨ (startsWith authorEmailPfx l = true ∧
        stepLine st l = .ok ({ st with author_email := escapeQuotes (l.drop 14) }, none))
    ∨ (startsWith authorDatePfx l = true ∧
        stepLine st l = .ok ({ st with author_date := (l.drop 12).take 10 }, none))
    ∨ (startsWith committerNamePfx l = true ∧
        stepLine st l = .ok ({ st with committer_name := escapeQuotes (l.drop 16) }, none))
    ∨ (startsWith committerEmailPfx l = true ∧
        stepLine st l = .ok ({ st with committer_email := escapeQuotes (l.drop 17) }, none))
    ∨ (startsWith committerDatePfx l = true ∧
        stepLine st l = .ok ({ st with committer_date := (l.drop 16).take 10 }, none))
    ∨ (st.commit_hash = none ∧ stepLine st l = .error ())
    ∨ (∃ hh, st.commit_hash = some hh ∧
        stepLine st l = .ok (st, some ⟨hh, st.author_name, st.author_email,
          st.author_date, st.committer_name, st.committer_email, st.committer_date,
          trim (l.drop 1)⟩)) := by
  by_cases h0 : l = []
  · exact Or.inl (by unfold stepLine; rw [if_pos h0])
  by_cases h1 : isMeta l
  · exact Or.inl (by unfold stepLine; rw [if_neg h0, if_pos h1])
  by_cases h2 : startsWith hashPfx l
  · exact Or.inr (Or.inl ⟨h2, by
      unfold stepLine; rw [if_neg h0, if_neg h1, if_pos h2]⟩)
  by_cases h3 : startsWith authorNamePfx l
  · exact Or.inr (Or.inr (Or.inl ⟨h3, by
      unfold stepLine; rw [if_neg h0, if_neg h1, if_neg h2, if_pos h3]⟩))
  by_cases h4 : startsWith authorEmailPfx l
  · exact Or.inr (Or.inr (Or.inr (Or.inl ⟨h4, by
      unfold stepLine; rw [if_neg h0, if_neg h1, if_neg h2, if_neg h3, if_pos h4]⟩)))
  by_cases h5 : startsWith authorDatePfx l
  · exact Or.inr (Or.inr (Or.inr (Or.inr (Or.inl ⟨h5, by
      unfold stepLine
      rw [if_neg h0, if_neg h1, if_neg h2, if_neg h3, if_neg h4, if_pos h5]⟩))))
  by_cases h6 : startsWith committerNamePfx l
  · exact Or.inr (Or.inr (Or.inr (Or.inr (Or.inr (Or.inl ⟨h6, by
      unfold stepLine
      rw [if_neg h0, if_neg h1, if_neg h2, if_neg h3, if_neg h4, if_neg h5,
        if_pos h6]⟩)))))
  by_cases h7 : startsWith committerEmailPfx l
  · exact Or.inr (Or.inr (Or.inr (Or.inr (Or.inr (Or.inr (Or.inl ⟨h7, by
      unfold stepLine
      rw [if_neg h0, if_neg h1, if_neg h2, if_neg h3, if_neg h4, if_neg h5,
        if_neg h6, if_pos h7]⟩))))))
  by_cases h8 : startsWith committerDatePfx l
  · exact Or.inr (Or.inr (Or.inr (Or.inr (Or.inr (Or.inr (Or.inr (Or.inl ⟨h8, by
      unfold stepLine
      rw [if_neg h0, if_neg h1, if_neg h2, if_neg h3, if_neg h4, if_neg h5,
        if_neg h6, if_neg h7, if_pos h8]⟩)))))))
  by_cases h9 : (startsWith plusPfx l && !(trim (l.drop 1)).isEmpty) = true
  · have hsq : stepLine st l =
        match st.commit_hash with
        | none => .error ()
        | some hh => .ok (st, some ⟨hh, st.author_name, st.author_email,
            st.author_date, st.committer_name, st.committer_email, st.committer_date,
            trim (l.drop 1)⟩) := by
      unfold stepLine
      rw [if_neg h0, if_neg h1, if_neg h2, if_neg h3, if_neg h4, if_neg h5,
        if_neg h6, if_neg h7, if_neg h8, if_pos h9]
    cases hm : st.commit_hash with
    | none =>
      refine Or.inr (Or.inr (Or.inr (Or.inr (Or.inr (Or.inr (Or.inr (Or.inr
        (Or.inl ⟨rfl, ?_⟩))))))))
      rw [hsq, hm]
    | some hh =>
      refine Or.inr (Or.inr (Or.inr (Or.inr (Or.inr (Or.inr (Or.inr (Or.inr
        (Or.inr ⟨hh, rfl, ?_⟩))))))))
      rw [hsq, hm]
  · exact Or.inl (by
      unfold stepLine
      rw [if_neg h0, if_neg h1, if_neg h2, if_neg h3, if_neg h4, if_neg h5,
        if_neg h6, if_neg h7, if_neg h8, if_neg h9])

lemma stepLine_field (f : HeaderField) (st : PState) (l : List Char) (st' : PState)
    (o : Option PatchRecord) (hpfx : startsWith f.pfx l = false)
    (h : stepLine st l = .ok (st', o)) :
    f.ofState st' = f.ofState st ∧ ∀ r, o = some r → f.ofRecord r = f.ofState st := by
  rcases stepLine_shape st l with hs | ⟨hg, hs⟩ | ⟨hg, hs⟩ | ⟨hg, hs⟩ | ⟨hg, hs⟩ |
    ⟨hg, hs⟩ | ⟨hg, hs⟩ | ⟨hg, hs⟩ | ⟨hn, hs⟩ | ⟨hh, hm, hs⟩
  · rw [hs] at h
    obtain ⟨hst, ho⟩ : st = st' ∧ none = o := by simpa using h
    subst hst; subst ho
    exact ⟨rfl, fun r hr => absurd hr (by simp)⟩
  · rw [hs] at h
    obtain ⟨hst, ho⟩ : _ = st' ∧ none = o := by simpa using h
    subst hst; subst ho
    exact ⟨by cases f <;> rfl, fun r hr => absurd hr (by simp)⟩
  · rw [hs] at h
    obtain ⟨hst, ho⟩ : _ = st' ∧ none = o := by simpa using h
    subst hst; subst ho
    refine ⟨?_, fun r hr => absurd hr (by simp)⟩
    cases f <;>
      first
        | rfl
        | (simp only [HeaderField.pfx] at hpfx; rw [hg] at hpfx
           exact Bool.noConfusion hpfx)
  · rw [hs] at h
    obtain ⟨hst, ho⟩ : _ = st' ∧ none = o := by simpa using h
    subst hst; subst ho
    refine ⟨?_, fun r hr => absurd hr (by simp)⟩
    cases f <;>
      first
        | rfl
        | (simp only [HeaderField.pfx] at hpfx; rw [hg] at hpfx
           exact Bool.noConfusion hpfx)
  · rw [hs] at h
    obtain ⟨hst, ho⟩ : _ = st' ∧ none = o := by simpa using h
    subst hst; subst ho
    refine ⟨?_, fun r hr => absurd hr (by simp)⟩
    cases f <;>
      first
        | rfl
        | (simp only [HeaderField.pfx] at hpfx; rw [hg] at hpfx
           exact Bool.noConfusion hpfx)
  · rw [hs] at h
    obtain ⟨hst, ho⟩ : _ = st' ∧ none = o := by simpa using h
    subst hst; subst ho
    refine ⟨?_, fun r hr => absurd hr (by simp)⟩
    cases f <;>
      first
        | rfl
        | (simp only [HeaderField.pfx] at hpfx; rw [hg] at hpfx
           exact Bool.noConfusion hpfx)
  · rw [hs] at h
    obtain ⟨hst, ho⟩ : _ = st' ∧ none = o := by simpa using h
    subst hst; subst ho
    refine ⟨?_, fun r hr => absurd hr (by simp)⟩
    cases f <;>
      first
        | rfl
        | (simp only [HeaderField.pfx] at hpfx; rw [hg] at hpfx
           exact Bool.noConfusion hpfx)
  · rw [hs] at h
    obtain ⟨hst, ho⟩ : _ = st' ∧ none = o := by simpa using h
    subst hst; subst ho
    refine ⟨?_, fun r hr => absurd hr (by simp)⟩
    cases f <;>
      first
        | rfl
        | (simp only [HeaderField.pfx] at hpfx; rw [hg] at hpfx
           exact Bool.noConfusion hpfx)
  · rw [hs] at h
    exact absurd h (fun hc => Except.noConfusion hc)
  · rw [hs] at h
    obtain ⟨hst, ho⟩ : st = st' ∧ some _ = o := by simpa using h
    subst hst
    refine ⟨rfl, ?_⟩
    intro r hr
    rw [← ho] at hr
    simp only [Option.some.injEq] at hr
    rw [← hr]
    cases f <;> rfl

lemma extractLog_field_const (f : HeaderField) : ∀ (log : List (List Char)) (st : PState)
    (recs : List PatchRecord) (st' : PState) (recs' : List PatchRecord),
    (∀ l ∈ log, startsWith f.pfx l = false) →
    extractLog log st recs = .ok (st', recs') →
    f.ofState st' = f.ofState st ∧
      ∀ r ∈ recs', r ∈ recs ∨ f.ofRecord r = f.ofState st := by
  intro log
  induction log with
  | nil =>
    intro st recs st' recs' _ h
    simp only [extractLog, Except.ok.injEq, Prod.mk.injEq] at h
    obtain ⟨h1, h2⟩ := h
    subst h1
    subst h2
    exact ⟨rfl, fun r hr => Or.inl hr⟩
  | cons l t ih =>
    intro st recs st' recs' hno h
    have hl : startsWith f.pfx l = false := hno l (by simp)
    have hrest : ∀ l' ∈ t, startsWith f.pfx l' = false :=
      fun l' hl' => hno l' (by simp [hl'])
    cases hs : stepLine st l with
    | error e =>
      simp only [extractLog, hs] at h
      exact absurd h (fun hc => Except.noConfusion hc)
    | ok p =>
      obtain ⟨st₁, o⟩ := p
      have hf := stepLine_field f st l st₁ o hl hs
      cases o with
      | none =>
        simp only [extractLog, hs] at h
        have hrec := ih st₁ recs st' recs' hrest h
        exact ⟨hrec.1.trans hf.1,
          fun r hr => (hrec.2 r hr).imp id (fun he => he.trans hf.1)⟩
      | some r₀ =>
        simp only [extractLog, hs] at h
        have hrec := ih st₁ (recs ++ [r₀]) st' recs' hrest h
        refine ⟨hrec.1.trans hf.1, ?_⟩
        intro r hr
        rcases hrec.2 r hr with hmem | heq
        · rcases List.mem_append.1 hmem with hm | hm
          · exact Or.inl hm
          · have hr0 : r = r₀ := by simpa using hm
            subst hr0
            exact Or.inr (hf.2 r rfl)
        · exact Or.inr (heq.trans hf.1)

/-- Claim C7 (counterexample): identity fields are initialised once per
file, not per commit.  In this log the second commit (`hash: bbb`) sets
no header fields before its addition line, and the resulting record
carries `Alice` — the previous commit's author name — not `(Unknown)`. -/
theorem C7_counterexample :
    extractHistory ceLogC7 =
      .ok [⟨"aaa".toList, "Alice".toList, unknown, unknown, unknown, unknown, unknown,
            "first added line".toList⟩,
           ⟨"bbb".toList, "Alice".toList, unknown, unknown, unknown, unknown, unknown,
            "second added line".toList⟩]
    ∧ "Alice".toList ≠ unknown :=
  ⟨rfl, by decide⟩

/-- Claim C7 as amended: a header field holds the sentinel `(Unknown)`
only until the first header line for that field anywhere in the log — a
new `hash:` line does not reset it, so a field not yet seen for the
current hash retains the most recently parsed value from earlier
commits.  Records produced from a log (here, a log prefix, via
`extractLog_append`) containing no header line for the field all carry
`(Unknown)` for it. -/
theorem C7_defaults_amended (f : HeaderField) (log : List (List Char))
    (st' : PState) (recs : List PatchRecord)
    (hno : ∀ l ∈ log, startsWith f.pfx l = false)
    (h : extractLog log initState [] = .ok (st', recs)) :
    f.ofState st' = unknown ∧ ∀ r ∈ recs, f.ofRecord r = unknown := by
  have hrec := extractLog_field_const f log initState [] st' recs hno h
  have hinit : f.ofState initState = unknown := by cases f <;> rfl
  refine ⟨hrec.1.trans hinit, ?_⟩
  intro r hr
  rcases hrec.2 r hr with hm | he
  · exact absurd hm (by simp)
  · exact he.trans hinit

/-- Witness: a log whose only lines are a `hash:` header and one addition
yields a record whose author email is `(Unknown)`. -/
theorem C7_defaults_amended_witness :
    HeaderField.authorEmail.ofRecord
      ⟨"ccc".toList, unknown, unknown, unknown, unknown, unknown, unknown,
       "some added line".toList⟩ = unknown :=
  (C7_defaults_amended .authorEmail wLogC7
      ⟨some "ccc".toList, unknown, unknown, unknown, unknown, unknown, unknown⟩
      [⟨"ccc".toList, unknown, unknown, unknown, unknown, unknown, unknown,
        "some added line".toList⟩]
      (by decide) rfl).2 _ (by simp)

/-- Claim C8: an `author_date` header line stores exactly the first 10
characters of the date value (which begins right after the colon, per
the log format), and a `committer_date` header line stores exactly the
first 10 characters of its value (which begins after the colon and
space); time-of-day and timezone are discarded. -/
theorem C8_date_truncation (v : List Char) (st : PState) :
    stepLine st (authorDatePfx ++ v) =
      .ok ({ st with author_date := v.take 10 }, none)
    ∧ stepLine st (committerDatePfx ++ (' ' :: v)) =
      .ok ({ st with committer_date := v.take 10 }, none) := by
  constructor
  · unfold stepLine
    rw [if_neg (by simp [authorDatePfx]),
      if_neg (by simp [isMeta, startsWith, diffPfx, indexPfx, plus3Pfx, minus3Pfx,
        hunkPfx, renamePfx, parentsPfx, indentPfx, authorDatePfx]),
      if_neg (by simp [startsWith, hashPfx, authorDatePfx]),
      if_neg (by simp [startsWith, authorNamePfx, authorDatePfx]),
      if_neg (by simp [startsWith, authorEmailPfx, authorDatePfx]),
      if_pos (by rw [startsWith_append_self])]
    have hd : (authorDatePfx ++ v).drop 12 = v := by
      have h12 : authorDatePfx.length = 12 := rfl
      rw [← h12, List.drop_left]
    rw [hd]
  · unfold stepLine
    rw [if_neg (by simp [committerDatePfx]),
      if_neg (by simp [isMeta, startsWith, diffPfx, indexPfx, plus3Pfx, minus3Pfx,
        hunkPfx, renamePfx, parentsPfx, indentPfx, committerDatePfx]),
      if_neg (by simp [startsWith, hashPfx, committerDatePfx]),
      if_neg (by simp [startsWith, authorNamePfx, committerDatePfx]),
      if_neg (by simp [startsWith, authorEmailPfx, committerDatePfx]),
      if_neg (by simp [startsWith, authorDatePfx, committerDatePfx]),
      if_neg (by simp [startsWith, committerNamePfx, committerDatePfx]),
      if_neg (by simp [startsWith, committerEmailPfx, committerDatePfx]),
      if_pos (by rw [startsWith_append_self])]
    have hd : (committerDatePfx ++ (' ' :: v)).drop 16 = v := by
      have hsplit : committerDatePfx ++ (' ' :: v) = (committerDatePfx ++ [' ']) ++ v := by
        simp
      have h16 : (committerDatePfx ++ [' ']).length = 16 := rfl
      rw [hsplit, ← h16, List.drop_left]
    rw [hd]

lemma stepLine_hash_const (st : PState) (l : List Char) (st' : PState)
    (o : Option PatchRecord) (hpfx : startsWith hashPfx l = false)
    (h : stepLine st l = .ok (st', o)) :
    st'.commit_hash = st.commit_hash := by
  rcases stepLine_shape st l with hs | ⟨hg, hs⟩ | ⟨hg, hs⟩ | ⟨hg, hs⟩ | ⟨hg, hs⟩ |
    ⟨hg, hs⟩ | ⟨hg, hs⟩ | ⟨hg, hs⟩ | ⟨hn, hs⟩ | ⟨hh, hm, hs⟩
  · rw [hs] at h
    obtain ⟨hst, _⟩ : st = st' ∧ none = o := by simpa using h
    subst hst; rfl
  · rw [hg] at hpfx
    exact Bool.noConfusion hpfx
  all_goals
    rw [hs] at h
  · obtain ⟨hst, _⟩ : _ = st' ∧ none = o := by simpa using h
    subst hst; rfl
  · obtain ⟨hst, _⟩ : _ = st' ∧ none = o := by simpa using h
    subst hst; rfl
  · obtain ⟨hst, _⟩ : _ = st' ∧ none = o := by simpa using h
    subst hst; rfl
  · obtain ⟨hst, _⟩ : _ = st' ∧ none = o := by simpa using h
    subst hst; rfl
  · obtain ⟨hst, _⟩ : _ = st' ∧ none = o := by simpa using h
    subst hst; rfl
  · obtain ⟨hst, _⟩ : _ = st' ∧ none = o := by simpa using h
    subst hst; rfl
  · exact absurd h (fun hc => Except.noConfusion hc)
  · obtain ⟨hst, _⟩ : st = st' ∧ some _ = o := by simpa using h
    subst hst; rfl

lemma extractLog_no_hash (log : List (List Char)) : ∀ (st : PState)
    (recs : List PatchRecord),
    (∀ l ∈ log, startsWith hashPfx l = false) →
    st.commit_hash = none →
    extractLog log st recs = .error () ∨
      ∃ st' recs', extractLog log st recs = .ok (st', recs') ∧ st'.commit_hash = none := by
  induction log with
  | nil => intro st recs _ hn; exact Or.inr ⟨st, recs, rfl, hn⟩
  | cons l t ih =>
    intro st recs hno hn
    cases hs : stepLine st l with
    | error e =>
      left
      simp only [extractLog, hs]
    | ok p =>
      obtain ⟨st₁, o⟩ := p
      have hhc : st₁.commit_hash = st.commit_hash :=
        stepLine_hash_const st l st₁ o (hno l (by simp)) hs
      have hn₁ : st₁.commit_hash = none := hhc.trans hn
      have hrest : ∀ l' ∈ t, startsWith hashPfx l' = false :=
        fun l' h' => hno l' (by simp [h'])
      cases o with
      | none =>
        have := ih st₁ recs hrest hn₁
        simpa only [extractLog, hs] using this
      | some r =>
        have := ih st₁ (recs ++ [r]) hrest hn₁
        simpa only [extractLog, hs] using this

lemma extractLog_orphan_error (st0 : PState) (pre : List (List Char)) (a : List Char)
    (post : List (List Char))
    (hpre : ∀ l ∈ pre, startsWith hashPfx l = false)
    (ha : isAdditionLine a = true) (hn : st0.commit_hash = none) :
    extractLog (pre ++ a :: post) st0 [] = .error () := by
  rw [extractLog_append]
  rcases extractLog_no_hash pre st0 [] hpre hn with herr | ⟨st', recs', hok, hnone⟩
  · rw [herr]
  · rw [hok]
    have hs := stepLine_addition st' a ha
    rw [hnone] at hs
    simp only [extractLog, hs]

lemma stepLine_ok_of_hash (st : PState) (l : List Char) (hh : List Char)
    (h : st.commit_hash = some hh) :
    ∃ st' o, stepLine st l = .ok (st', o) ∧ ∃ hh', st'.commit_hash = some hh' := by
  rcases stepLine_shape st l with hs | ⟨hg, hs⟩ | ⟨hg, hs⟩ | ⟨hg, hs⟩ | ⟨hg, hs⟩ |
    ⟨hg, hs⟩ | ⟨hg, hs⟩ | ⟨hg, hs⟩ | ⟨hn, hs⟩ | ⟨hh0, hm, hs⟩
  · exact ⟨st, none, hs, hh, h⟩
  · exact ⟨_, none, hs, l.drop 6, rfl⟩
  · exact ⟨_, none, hs, hh, h⟩
  · exact ⟨_, none, hs, hh, h⟩
  · exact ⟨_, none, hs, hh, h⟩
  · exact ⟨_, none, hs, hh, h⟩
  · exact ⟨_, none, hs, hh, h⟩
  · exact ⟨_, none, hs, hh, h⟩
  · rw [hn] at h
    exact Option.noConfusion h
  · exact ⟨st, _, hs, hh0, hm⟩

lemma extractLog_hash_some : ∀ (log : List (List Char)) (st : PState)
    (recs : List PatchRecord),
    (∃ hh, st.commit_hash = some hh) →
    ∃ st' recs', extractLog log st recs = .ok (st', recs') ∧
      ∃ hh', st'.commit_hash = some hh' := by
  intro log
  induction log with
  | nil => intro st recs h; exact ⟨st, recs, rfl, h⟩
  | cons l t ih =>
    intro st recs hsome
    rcases hsome with ⟨hh, hsome⟩
    rcases stepLine_ok_of_hash st l hh hsome with ⟨st₁, o, hs, hsome₁⟩
    cases o with
    | none =>
      rcases ih st₁ recs hsome₁ with ⟨st', recs', hok, hh'⟩
      exact ⟨st', recs', by simp only [extractLog, hs]; exact hok, hh'⟩
    | some r =>
      rcases ih st₁ (recs ++ [r]) hsome₁ with ⟨st', recs', hok, hh'⟩
      exact ⟨st', recs', by simp only [extractLog, hs]; exact hok, hh'⟩

/-- Claim C10 (counterexample): `commit_hash` is a function-local of
`analyze_file` that is never re-initialised per file, so after a first
file whose log set `hash: aaa`, the second file of the batch — whose
whole log is one addition line, with no `hash:` line preceding it —
extracts successfully and its record silently carries the stale hash
`aaa` from the earlier file, instead of extraction failing. -/
theorem C10_counterexample :
    ceBatchResult =
      .ok ([⟨"aaa".toList, unknown, unknown, unknown, unknown, unknown, unknown,
             "orphan added line".toList⟩],
           ⟨some "aaa".toList, unknown, unknown, unknown, unknown, unknown, unknown⟩)
    ∧ startsWith hashPfx ("+orphan added line".toList) = false
    ∧ isAdditionLine ("+orphan added line".toList) = true :=
  ⟨rfl, by decide, by decide⟩

/-- Claim C10 as amended: the six identity fields are re-defaulted to
`(Unknown)` for every file of a batch, but the commit hash is not — it
carries over.  For a log whose addition line precedes its first `hash:`
line, extraction fails exactly when the carried hash is still unbound
(as for the first file a worker processes, state `initState`); when an
earlier file of the batch already set a hash, extraction succeeds and
reuses it. -/
theorem C10_stale_hash_amended (st : PState) (pre : List (List Char)) (a : List Char)
    (post : List (List Char))
    (hpre : ∀ l ∈ pre, startsWith hashPfx l = false)
    (ha : isAdditionLine a = true) :
    (st.commit_hash = none → extractFileCarry st (pre ++ a :: post) = .error ())
    ∧ (∀ hh, st.commit_hash = some hh →
        ∃ recs st', extractFileCarry st (pre ++ a :: post) = .ok (recs, st')) := by
  constructor
  · intro hn
    unfold extractFileCarry
    rw [extractLog_orphan_error (resetIdentity st) pre a post hpre ha
      (show (resetIdentity st).commit_hash = none from hn)]
  · intro hh hsome
    rcases extractLog_hash_some (pre ++ a :: post) (resetIdentity st) []
      ⟨hh, (show (resetIdentity st).commit_hash = some hh from hsome)⟩ with
      ⟨st', recs', hok, _⟩
    refine ⟨recs', st', ?_⟩
    unfold extractFileCarry
    rw [hok]

/-- Witness: with the batch-initial state (hash unbound), a log whose
addition line is preceded only by an `author_name` header fails
extraction. -/
theorem C10_stale_hash_amended_witness :
    extractFileCarry initState wLogC10 = .error () :=
  (C10_stale_hash_amended initState ["author_name: Alice".toList]
    ("+orphan added line".toList) [] (by decide) (by decide)).1 rfl

end Water
